import Mathlib

/-!
Verification of the Gupta-potential cluster engine
(`potentials/gupta.py`) and the bond report (`get_bonds.py`) from the
atomic-clusters repository.  The Python source is shallowly embedded:
the parameter dictionary becomes a string-keyed lookup over exact
rationals, numpy array pipelines become list maps and sums over `ℝ`,
and fallible construction / evaluation steps return `Except`.
-/

namespace CompChem

/-! ### The parameter table (module-level `parameters` dict in gupta.py) -/

/-- One entry of the `parameters` dict: `(A, XI, P, Q, R0)`. -/
structure GuptaParams where
  A : ℚ
  XI : ℚ
  P : ℚ
  Q : ℚ
  R0 : ℚ
  deriving DecidableEq

def feFe : GuptaParams := ⟨13315/100000, 16179/10000, 105000/10000, 26000/10000, 25530/10000⟩
def feCo : GuptaParams := ⟨11246/100000, 15515/10000, 110380/10000, 24379/10000, 25248/10000⟩
def feNi : GuptaParams := ⟨7075/100000, 13157/10000, 133599/10000, 17582/10000, 25213/10000⟩
def coCo : GuptaParams := ⟨9500/100000, 14880/10000, 116040/10000, 22860/10000, 24970/10000⟩
def coNi : GuptaParams := ⟨5970/100000, 12618/10000, 140447/10000, 16486/10000, 24934/10000⟩
def niNi : GuptaParams := ⟨3760/100000, 10700/10000, 169990/10000, 11890/10000, 24900/10000⟩

/-- The string-keyed `parameters` dictionary of gupta.py (`None` = `KeyError`). -/
def parameters (key : String) : Option GuptaParams :=
  if key = "Fe-Fe" then some feFe
  else if key = "Fe-Co" then some feCo
  else if key = "Fe-Ni" then some feNi
  else if key = "Co-Co" then some coCo
  else if key = "Co-Ni" then some coNi
  else if key = "Ni-Ni" then some niNi
  else none

/-- The f-string key `f"{a}-{b}"` used by `Gupta.__init__`. -/
def mkKey (a b : String) : String := a ++ "-" ++ b

/-! ### Pair enumeration and the `idx` helper of `Gupta.__init__` -/

/-- The `idx_ij` list: `for i in range(n-1): for j in range(i+1, n)`. -/
def pairIdx (n : ℕ) : List (ℕ × ℕ) :=
  (List.range (n - 1)).flatMap (fun i =>
    (List.range' (i + 1) (n - (i + 1))).map (fun j => (i, j)))

/-- The `idx(i, j)` closure: swap so that the first argument is smaller,
then take the row-major upper-triangular linear index. -/
def idx (n i j : ℕ) : ℕ :=
  if j < i then n * j + i - (j + 2) * (j + 1) / 2
  else n * i + j - (i + 2) * (i + 1) / 2

/-- `self.pairwise`: `[[idx(i, j) for j in range(n) if i != j] for i in range(n)]`. -/
def pairwiseGroups (n : ℕ) : List (List ℕ) :=
  (List.range n).map (fun i =>
    ((List.range n).filter (fun j => decide (¬ i = j))).map (fun j => idx n i j))

/-- The `atom_ij` list of element-symbol pairs, one per entry of `idx_ij`. -/
def atomPairs (atoms : List String) : List (String × String) :=
  (pairIdx atoms.length).map (fun p => (atoms.getD p.1 "", atoms.getD p.2 ""))

/-- Errors surfaced by the embedded construction / evaluation:
`indexError` models a numpy `IndexError`, `keyError a b` models the
`KeyError` raised by `parameters[f"{a}-{b}"]`. -/
inductive GuptaError where
  | indexError : GuptaError
  | keyError : String → String → GuptaError
  deriving DecidableEq

/-- The parameter-resolution comprehension
`[parameters[f"{aij[0]}-{aij[1]}"] for aij in atom_ij]`:
left to right, raising on the first missing key. -/
def lookupParams : List (String × String) → Except GuptaError (List GuptaParams)
  | [] => Except.ok []
  | ab :: rest =>
    match parameters (mkKey ab.1 ab.2) with
    | none => Except.error (GuptaError.keyError ab.1 ab.2)
    | some p =>
      match lookupParams rest with
      | Except.error e => Except.error e
      | Except.ok ps => Except.ok (p :: ps)

/-- `Gupta.__init__`: build `idx_ij`; `np.array(idx_ij)[:, 0]` raises an
`IndexError` when the pair list is empty (the array is then 1-dimensional);
otherwise resolve every pair's parameters through the dictionary. -/
def guptaInit (atoms : List String) : Except GuptaError (List GuptaParams) :=
  if pairIdx atoms.length = [] then Except.error GuptaError.indexError
  else lookupParams (atomPairs atoms)

/-! ### The potential (`Gupta.potential`) -/

/-- Euclidean distance between rows `i` and `j` of the coordinate map. -/
noncomputable def dist3 (c : ℕ → Fin 3 → ℝ) (i j : ℕ) : ℝ :=
  Real.sqrt (∑ k : Fin 3, (c i k - c j k) ^ 2)

/-- One repulsive entry `A * exp(-P * (d / R0 - 1))` (`Ur` in the source,
with `nP = -P`). -/
noncomputable def urTerm (q : GuptaParams) (d : ℝ) : ℝ :=
  (q.A : ℝ) * Real.exp (-(q.P : ℝ) * (d / (q.R0 : ℝ) - 1))

/-- One band entry `XI**2 * exp(-Q*2 * (d / R0 - 1))` (`Ub` in the source,
with `XI2 = XI**2` and `nQ2 = -Q * 2`). -/
noncomputable def ubTerm (q : GuptaParams) (d : ℝ) : ℝ :=
  (q.XI : ℝ) ^ 2 * Real.exp (-((q.Q : ℝ) * 2) * (d / (q.R0 : ℝ) - 1))

/-- The `Ur` array, one entry per pair. -/
noncomputable def urList (n : ℕ) (ps : List GuptaParams) (c : ℕ → Fin 3 → ℝ) : List ℝ :=
  ((pairIdx n).zip ps).map (fun z => urTerm z.2 (dist3 c z.1.1 z.1.2))

/-- The `Ub` array, one entry per pair. -/
noncomputable def ubList (n : ℕ) (ps : List GuptaParams) (c : ℕ → Fin 3 → ℝ) : List ℝ :=
  ((pairIdx n).zip ps).map (fun z => ubTerm z.2 (dist3 c z.1.1 z.1.2))

/-- `Gupta.potential`:
`U = 2*sum(Ur) - sum(sqrt(sum(Ub[pairwise], axis=1)))`. -/
noncomputable def potentialCore (n : ℕ) (ps : List GuptaParams) (c : ℕ → Fin 3 → ℝ) : ℝ :=
  2 * (urList n ps c).sum -
    ((pairwiseGroups n).map (fun row =>
      Real.sqrt ((row.map (fun k => (ubList n ps c).getD k 0)).sum))).sum

/-- Lift a coordinate-row list to a total map (rows past the end give junk `0`,
which is only ever read behind the bound check below). -/
noncomputable def liftCoords (coords : List (Fin 3 → ℝ)) : ℕ → Fin 3 → ℝ :=
  fun i => coords.getD i (fun _ => 0)

/-- `Gupta.potential` including the numpy fancy-indexing bound check of
`coords[self.ai] - coords[self.aj]`: an `IndexError` is raised exactly when
some stored pair index is out of range for the supplied row list. -/
noncomputable def potentialChecked (n : ℕ) (ps : List GuptaParams)
    (coords : List (Fin 3 → ℝ)) : Except GuptaError ℝ :=
  if ∀ p ∈ pairIdx n, p.1 < coords.length ∧ p.2 < coords.length
  then Except.ok (potentialCore n ps (liftCoords coords))
  else Except.error GuptaError.indexError

/-! ### The spec-side restatement of the energy (section 4.3 of the spec) -/

/-- Parameters of a pair, read off the six-entry table for the pair's
element symbols (junk default behind a successful-construction hypothesis). -/
def tableParams (atoms : List String) (p : ℕ × ℕ) : GuptaParams :=
  (parameters (mkKey (atoms.getD p.1 "") (atoms.getD p.2 ""))).getD feFe

/-- The spec's formula: twice the sum of repulsive terms over all unordered
pairs, minus, for every atom `i`, the square root of the sum of band terms
over the pairs that contain `i`. -/
noncomputable def specEnergy (atoms : List String) (c : ℕ → Fin 3 → ℝ) : ℝ :=
  2 * ((pairIdx atoms.length).map
        (fun p => urTerm (tableParams atoms p) (dist3 c p.1 p.2))).sum -
    ((List.range atoms.length).map (fun i =>
      Real.sqrt ((((pairIdx atoms.length).filter
          (fun p => decide (p.1 = i ∨ p.2 = i))).map
        (fun p => ubTerm (tableParams atoms p) (dist3 c p.1 p.2))).sum))).sum

/-! ### The Hessian (`hess(self.potential)` from autograd) -/

/-- Restrict the evaluation to the finite-dimensional coordinate space of a
cluster of `n` atoms (rows beyond `n` are never read by the potential). -/
def toCoords (n : ℕ) (x : Fin n → Fin 3 → ℝ) : ℕ → Fin 3 → ℝ :=
  fun i => if h : i < n then x ⟨i, h⟩ else fun _ => 0

/-- The potential as a function on the cluster's own coordinate space. -/
noncomputable def Ufin (n : ℕ) (ps : List GuptaParams) (x : Fin n → Fin 3 → ℝ) : ℝ :=
  potentialCore n ps (toCoords n x)

/-- Standard basis direction for coordinate `(atom, axis)`. -/
def basisVec (n : ℕ) (a : Fin n × Fin 3) : Fin n → Fin 3 → ℝ :=
  Pi.single a.1 (Pi.single a.2 1)

/-- Entry `(a, b)` of the `3n × 3n` Hessian: the second derivative of the
potential along the two coordinate directions (autograd's `hess` computes
the exact mathematical derivative of the closed-form expression). -/
noncomputable def hessianEntry (n : ℕ) (ps : List GuptaParams)
    (x : Fin n → Fin 3 → ℝ) (a b : Fin n × Fin 3) : ℝ :=
  fderiv ℝ (fderiv ℝ (Ufin n ps)) x (basisVec n a) (basisVec n b)

/-! ### The bond report (`get_bonds.py`) -/

/-- The bond threshold `valid_bond = 2.513`. -/
def validBond : ℚ := 2513/1000

/-- `pairwise_distances`: row `i` lists the distances from atom `i` to every
other atom `j ≠ i`, in ascending order of `j`. -/
noncomputable def pairDistRows (coords : List (Fin 3 → ℝ)) : List (List ℝ) :=
  (List.range coords.length).map (fun i =>
    ((List.range coords.length).filter (fun j => decide (¬ i = j))).map
      (fun j => dist3 (liftCoords coords) i j))

/-- `valid_distances`: `(i, j, pairwise_distances[i, j-1])` for all `i < j`
whose tabulated distance is at most the threshold. -/
noncomputable def validDistances (coords : List (Fin 3 → ℝ)) : List (ℕ × ℕ × ℝ) :=
  (List.range coords.length).flatMap (fun i =>
    (List.range' (i + 1) (coords.length - (i + 1))).flatMap (fun j =>
      if ((pairDistRows coords).getD i []).getD (j - 1) 0 ≤ (validBond : ℝ)
      then [(i, j, ((pairDistRows coords).getD i []).getD (j - 1) 0)]
      else []))

/-- Observable outcome of `compute_distances`: either the bond list together
with its mean distance, or the no-bonds message (mean never computed). -/
inductive BondOutput where
  | bonds : List (ℕ × ℕ × ℝ) → ℝ → BondOutput
  | noBonds : BondOutput

/-- The reporting tail of `compute_distances`: the mean is only evaluated
inside the `if valid_distances:` branch. -/
noncomputable def computeDistances (coords : List (Fin 3 → ℝ)) : BondOutput :=
  if validDistances coords = [] then BondOutput.noBonds
  else BondOutput.bonds (validDistances coords)
    ((((validDistances coords).map (fun t => t.2.2)).sum) / ((validDistances coords).length : ℝ))

/-- The spec's two-atom fixture: coordinates [[0,0,0],[0,0,2.5530]]. -/
noncomputable def cTwo : ℕ → Fin 3 → ℝ := fun i k =>
  if i = 0 then 0 else if k = 2 then 25530/10000 else 0

/-- A two-atom fixture 10 Angstroms apart (for the empty bond report). -/
noncomputable def cBond : List (Fin 3 → ℝ) :=
  [fun _ => 0, fun k => if k = 2 then 10 else 0]

/-- A two-atom coordinate assignment with distinct rows (Hessian witness). -/
noncomputable def xW : Fin 2 → Fin 3 → ℝ := fun i _ => if i = 0 then 0 else 1

end CompChem

namespace CompChem

lemma mem_pairIdx {n : ℕ} {p : ℕ × ℕ} : p ∈ pairIdx n ↔ p.1 < p.2 ∧ p.2 < n := by
  obtain ⟨i, j⟩ := p
  simp only [pairIdx, List.mem_flatMap, List.mem_map, List.mem_range, List.mem_range',
    Prod.mk.injEq]
  constructor
  · rintro ⟨a, ha, b, ⟨t, ht, rfl⟩, rfl, rfl⟩
    omega
  · rintro ⟨hij, hjn⟩
    exact ⟨i, by omega, j, ⟨j - (i + 1), by omega⟩, rfl, rfl⟩

lemma pairIdx_eq_nil_iff {n : ℕ} : pairIdx n = [] ↔ n < 2 := by
  constructor
  · intro h
    by_contra hn
    have h01 : ((0 : ℕ), (1 : ℕ)) ∈ pairIdx n := mem_pairIdx.mpr (by omega)
    rw [h] at h01
    exact absurd h01 (List.not_mem_nil _)
  · intro h
    have : n - 1 = 0 := by omega
    simp [pairIdx, this]

end CompChem

namespace CompChem

lemma pairIdx_succ (n : ℕ) :
    pairIdx (n + 1) =
      (List.range' 1 n).map (fun j => (0, j)) ++
        (pairIdx n).map (fun p => (p.1 + 1, p.2 + 1)) := by
  cases n with
  | zero => rfl
  | succ m =>
    show (List.range (m + 1)).flatMap _ = _
    rw [List.range_succ_eq_map, List.flatMap_cons, List.flatMap_map]
    congr 1
    simp only [pairIdx, Nat.add_sub_cancel]
    rw [List.map_flatMap]
    refine congrArg (List.flatMap (List.range m)) (funext fun a => ?_)
    rw [List.map_map]
    simp only [Nat.succ_eq_add_one]
    have hm : m + 1 - (a + 1) = m - a := by omega
    have hm2 : m + 1 + 1 - (a + 1 + 1) = m - a := by omega
    rw [hm, hm2, List.range'_eq_map_range, List.range'_eq_map_range, List.map_map, List.map_map]
    refine congrArg (fun f => List.map f (List.range (m - a))) (funext fun j => ?_)
    simp only [Function.comp]
    refine Prod.ext rfl ?_
    omega

end CompChem

namespace CompChem

lemma idx_lt (n i j : ℕ) (h : i < j) :
    idx n i j = n * i + j - (i + 2) * (i + 1) / 2 := by
  unfold idx
  rw [if_neg (by omega)]

lemma idx_symm (n : ℕ) {i j : ℕ} (h : i ≠ j) : idx n i j = idx n j i := by
  unfold idx
  rcases Nat.lt_or_ge i j with hij | hij
  · rw [if_neg (by omega), if_pos hij]
  · rw [if_pos (by omega), if_neg (by omega)]

lemma idx_twice (n i j : ℕ) (hij : i < j) (hj : j < n) :
    2 * idx n i j + (i + 2) * (i + 1) = 2 * (n * i) + 2 * j := by
  rw [idx_lt _ _ _ hij]
  have hmul : (i + 2) * i ≤ n * i := Nat.mul_le_mul_right i (by omega)
  have hPexp : (i + 2) * (i + 1) = i * i + 3 * i + 2 := by ring
  have hmulexp : (i + 2) * i = i * i + 2 * i := by ring
  have hdvd : 2 ∣ (i + 2) * (i + 1) := by
    have h := Nat.even_mul_succ_self (i + 1)
    rw [Nat.mul_comm] at h
    exact h.two_dvd
  omega

lemma idx_succ (n t j : ℕ) (hij : t + 1 < j) (hj : j < n + 1) :
    idx (n + 1) (t + 1) j = n + idx n t (j - 1) := by
  have h1 := idx_twice (n + 1) (t + 1) j hij hj
  have h2 := idx_twice n t (j - 1) (by omega) (by omega)
  have e1 : (t + 1 + 2) * (t + 1 + 1) = t * t + 5 * t + 6 := by ring
  have e2 : (t + 2) * (t + 1) = t * t + 3 * t + 2 := by ring
  have e3 : (n + 1) * (t + 1) = n * t + n + t + 1 := by ring
  omega

lemma pairIdx_get (i : ℕ) : ∀ (n j : ℕ), i < j → j < n →
    (pairIdx n)[idx n i j]? = some (i, j) := by
  induction i with
  | zero =>
    intro n j hij hj
    obtain ⟨m, rfl⟩ : ∃ m, n = m + 1 := ⟨n - 1, by omega⟩
    have hidx : idx (m + 1) 0 j = j - 1 := by
      rw [idx_lt _ _ _ hij]; omega
    rw [pairIdx_succ, hidx,
      List.getElem?_append_left (by simp; omega), List.getElem?_map,
      List.getElem?_range' _ _ (by omega : j - 1 < m)]
    simp only [Option.map_some']
    congr 2
    omega
  | succ t ih =>
    intro n j hij hj
    obtain ⟨m, rfl⟩ : ∃ m, n = m + 1 := ⟨n - 1, by omega⟩
    rw [pairIdx_succ, idx_succ m t j hij (by omega)]
    rw [List.getElem?_append_right (by simp : ((List.range' 1 m).map (fun j => ((0:ℕ), j))).length ≤ m + idx m t (j - 1))]
    have hoff : m + idx m t (j - 1) - ((List.range' 1 m).map (fun j => ((0:ℕ), j))).length = idx m t (j - 1) := by
      simp
    rw [hoff, List.getElem?_map, ih m (j - 1) (by omega) (by omega)]
    simp only [Option.map_some']
    congr 2
    omega

end CompChem

namespace CompChem

lemma pairIdx_length (n : ℕ) : (pairIdx n).length = n * (n - 1) / 2 := by
  induction n with
  | zero => rfl
  | succ m ih =>
    rw [pairIdx_succ, List.length_append, List.length_map, List.length_map,
      List.length_range', ih]
    have hdvd : 2 ∣ m * (m - 1) := by
      cases m with
      | zero => simp
      | succ s =>
        have h := Nat.even_mul_succ_self s
        rw [Nat.succ_sub_one, Nat.mul_comm]
        exact h.two_dvd
    have hq : (m + 1) * (m + 1 - 1) = m * (m - 1) + 2 * m := by
      cases m with
      | zero => rfl
      | succ s =>
        rw [Nat.succ_sub_one, Nat.succ_sub_one]
        ring
    omega

lemma pairIdx_nodup (n : ℕ) : (pairIdx n).Nodup := by
  induction n with
  | zero => simp [pairIdx]
  | succ m ih =>
    rw [pairIdx_succ]
    refine List.Nodup.append ?_ ?_ ?_
    · refine List.Nodup.map ?_ (List.nodup_range' 1 m)
      intro a b hab
      simpa using hab
    · refine List.Nodup.map ?_ ih
      rintro ⟨a1, a2⟩ ⟨b1, b2⟩ hab
      simp only [Prod.mk.injEq] at hab ⊢
      omega
    · rintro p hp hq
      simp only [List.mem_map] at hp hq
      obtain ⟨a, _, rfl⟩ := hp
      obtain ⟨q, _, hq2⟩ := hq
      have := congrArg Prod.fst hq2
      simp at this

lemma mem_of_some {α : Type} {l : List α} {k : ℕ} {a : α} (h : l[k]? = some a) :
    a ∈ l ∧ k < l.length := by
  constructor
  · exact List.getElem?_mem h
  · by_contra hk
    rw [List.getElem?_eq_none (by omega)] at h
    cases h

lemma idx_lt_length {n i j : ℕ} (hij : i < j) (hj : j < n) :
    idx n i j < (pairIdx n).length :=
  (mem_of_some (pairIdx_get i n j hij hj)).2

lemma filter_ne_range (i : ℕ) : ∀ (n : ℕ), i < n →
    (List.range n).filter (fun j => decide (¬ i = j)) =
      List.range i ++ List.range' (i + 1) (n - i - 1) := by
  intro n
  induction n with
  | zero => omega
  | succ m ih =>
    intro h
    rw [List.range_succ, List.filter_append]
    rcases Nat.lt_or_ge i m with him | him
    · rw [ih him]
      have hm : decide (¬ i = m) = true := by simp; omega
      simp only [List.filter_cons, hm, List.filter_nil]
      rw [List.append_assoc]
      congr 1
      have hlen : m + 1 - i - 1 = (m - i - 1) + 1 := by omega
      rw [hlen, List.range'_concat]
      have hm2 : i + 1 + 1 * (m - i - 1) = m := by omega
      rw [hm2]
      simp
    · have him' : i = m := by omega
      subst him'
      have h1 : (List.range i).filter (fun j => decide (¬ i = j)) = List.range i := by
        rw [List.filter_eq_self]
        intro a ha
        simp only [List.mem_range] at ha
        simp
        omega
      have h2 : decide (¬ i = i) = false := by simp
      simp only [h1, List.filter_cons, h2, List.filter_nil]
      have : i + 1 - i - 1 = 0 := by omega
      simp [this]

lemma mem_row_iff {n i : ℕ} (hi : i < n) (k : ℕ) :
    k ∈ ((List.range n).filter (fun j => decide (¬ i = j))).map (fun j => idx n i j) ↔
      ∃ p, (pairIdx n)[k]? = some p ∧ (p.1 = i ∨ p.2 = i) := by
  constructor
  · intro hk
    simp only [List.mem_map, List.mem_filter, List.mem_range, decide_eq_true_eq] at hk
    obtain ⟨j, ⟨hj, hne⟩, rfl⟩ := hk
    rcases Nat.lt_or_ge i j with hij | hij
    · exact ⟨(i, j), pairIdx_get i n j hij hj, Or.inl rfl⟩
    · have hji : j < i := by omega
      rw [idx_symm n (by omega)]
      exact ⟨(j, i), pairIdx_get j n i hji hi, Or.inr rfl⟩
  · rintro ⟨⟨p1, p2⟩, hp, hcase⟩
    obtain ⟨hmem, hk⟩ := mem_of_some hp
    obtain ⟨h12, h2n⟩ := mem_pairIdx.mp hmem
    simp only [List.mem_map, List.mem_filter, List.mem_range, decide_eq_true_eq]
    rcases hcase with h | h
    · subst h
      refine ⟨p2, ⟨h2n, by omega⟩, ?_⟩
      exact List.getElem?_inj (idx_lt_length h12 h2n) (pairIdx_nodup n)
        ((pairIdx_get p1 n p2 h12 h2n).trans hp.symm)
    · subst h
      refine ⟨p1, ⟨by omega, by omega⟩, ?_⟩
      rw [idx_symm n (by omega)]
      exact List.getElem?_inj (idx_lt_length h12 h2n) (pairIdx_nodup n)
        ((pairIdx_get p1 n p2 h12 h2n).trans hp.symm)

end CompChem

namespace CompChem

lemma append_cons_inj {α : Type} {c : α} : ∀ {l₁ : List α} {m₁ l₂ m₂ : List α},
    l₁ ++ c :: l₂ = m₁ ++ c :: m₂ → c ∉ l₁ → c ∉ m₁ → l₁ = m₁ ∧ l₂ = m₂ := by
  intro l₁
  induction l₁ with
  | nil =>
    intro m₁ l₂ m₂ h hc hm
    cases m₁ with
    | nil => simpa using h
    | cons b bs =>
      simp only [List.nil_append, List.cons_append, List.cons.injEq] at h
      exact absurd (h.1 ▸ List.mem_cons_self b bs) hm
  | cons a as ih =>
    intro m₁ l₂ m₂ h hc hm
    cases m₁ with
    | nil =>
      simp only [List.cons_append, List.nil_append, List.cons.injEq] at h
      exact absurd (h.1.symm ▸ List.mem_cons_self a as) hc
    | cons b bs =>
      simp only [List.cons_append, List.cons.injEq] at h
      obtain ⟨rfl, htail⟩ := h
      obtain ⟨h1, h2⟩ := ih htail (fun hx => hc (List.mem_cons_of_mem _ hx))
        (fun hx => hm (List.mem_cons_of_mem _ hx))
      exact ⟨by rw [h1], h2⟩

lemma string_data_inj {a b : String} (h : a.data = b.data) : a = b := by
  cases a; cases b; exact congrArg String.mk h

lemma mkKey_data (a b : String) : (mkKey a b).data = a.data ++ '-' :: b.data := by
  simp [mkKey, String.data_append]

lemma mkKey_inj {x y u v : String} (h : mkKey x y = mkKey u v)
    (hu : u.data.count '-' = 0) (hv : v.data.count '-' = 0) : x = u ∧ y = v := by
  have hd : x.data ++ '-' :: y.data = u.data ++ '-' :: v.data := by
    have h2 := congrArg String.data h
    rwa [mkKey_data, mkKey_data] at h2
  have hcnt := congrArg (List.count '-') hd
  rw [List.count_append, List.count_append, List.count_cons_self, List.count_cons_self] at hcnt
  rw [hu, hv] at hcnt
  have hnx : '-' ∉ x.data := by
    rw [← List.count_eq_zero]
    omega
  have hnu : '-' ∉ u.data := by
    rw [← List.count_eq_zero, hu]
  obtain ⟨h1, h2⟩ := append_cons_inj hd hnx hnu
  exact ⟨string_data_inj h1, string_data_inj h2⟩

end CompChem

namespace CompChem

lemma parameters_some_mem {k : String} {q : GuptaParams} (h : parameters k = some q) :
    q ∈ [feFe, feCo, feNi, coCo, coNi, niNi] := by
  unfold parameters at h
  split_ifs at h <;> simp_all

lemma parameters_mkKey_supported {x y : String} {q : GuptaParams}
    (h : parameters (mkKey x y) = some q) :
    x ∈ (["Fe", "Co", "Ni"] : List String) ∧ y ∈ (["Fe", "Co", "Ni"] : List String) := by
  unfold parameters at h
  split_ifs at h with h1 h2 h3 h4 h5 h6
  · obtain ⟨rfl, rfl⟩ := mkKey_inj (h1.trans (by decide : ("Fe-Fe" : String) = mkKey "Fe" "Fe")) (by decide) (by decide)
    exact ⟨by decide, by decide⟩
  · obtain ⟨rfl, rfl⟩ := mkKey_inj (h2.trans (by decide : ("Fe-Co" : String) = mkKey "Fe" "Co")) (by decide) (by decide)
    exact ⟨by decide, by decide⟩
  · obtain ⟨rfl, rfl⟩ := mkKey_inj (h3.trans (by decide : ("Fe-Ni" : String) = mkKey "Fe" "Ni")) (by decide) (by decide)
    exact ⟨by decide, by decide⟩
  · obtain ⟨rfl, rfl⟩ := mkKey_inj (h4.trans (by decide : ("Co-Co" : String) = mkKey "Co" "Co")) (by decide) (by decide)
    exact ⟨by decide, by decide⟩
  · obtain ⟨rfl, rfl⟩ := mkKey_inj (h5.trans (by decide : ("Co-Ni" : String) = mkKey "Co" "Ni")) (by decide) (by decide)
    exact ⟨by decide, by decide⟩
  · obtain ⟨rfl, rfl⟩ := mkKey_inj (h6.trans (by decide : ("Ni-Ni" : String) = mkKey "Ni" "Ni")) (by decide) (by decide)
    exact ⟨by decide, by decide⟩

lemma lookupParams_ok_mem {l : List (String × String)} {ps : List GuptaParams}
    (h : lookupParams l = Except.ok ps) :
    ∀ ab ∈ l, ∃ q, parameters (mkKey ab.1 ab.2) = some q := by
  induction l generalizing ps with
  | nil => intro ab hab; cases hab
  | cons a rest ih =>
    intro ab hab
    unfold lookupParams at h
    cases hpar : parameters (mkKey a.1 a.2) with
    | none => rw [hpar] at h; cases h
    | some q =>
      rw [hpar] at h
      cases hrest : lookupParams rest with
      | error e => rw [hrest] at h; cases h
      | ok ps2 =>
        rcases List.mem_cons.mp hab with heq | hmem
        · exact ⟨q, heq ▸ hpar⟩
        · exact ih hrest ab hmem

lemma lookupParams_ok_eq {l : List (String × String)} {ps : List GuptaParams}
    (h : lookupParams l = Except.ok ps) :
    ps = l.map (fun ab => (parameters (mkKey ab.1 ab.2)).getD feFe) := by
  induction l generalizing ps with
  | nil => cases h; rfl
  | cons a rest ih =>
    unfold lookupParams at h
    cases hpar : parameters (mkKey a.1 a.2) with
    | none => rw [hpar] at h; cases h
    | some q =>
      rw [hpar] at h
      cases hrest : lookupParams rest with
      | error e => rw [hrest] at h; cases h
      | ok ps2 =>
        rw [hrest] at h
        cases h
        simp only [List.map_cons, hpar, Option.getD_some]
        exact congrArg (q :: ·) (ih hrest)

end CompChem

namespace CompChem

/-- C10: constructing a Gupta cluster from fewer than two atoms always fails
at construction time with the index error raised by column-indexing the
empty pair array, so no undersized cluster object is ever produced. -/
theorem small_cluster_always_fails (atoms : List String) (h : atoms.length < 2) :
    guptaInit atoms = Except.error GuptaError.indexError := by
  unfold guptaInit
  rw [if_pos (pairIdx_eq_nil_iff.mpr h)]

/-- Witness for C10 at the concrete one-atom list. -/
theorem small_cluster_always_fails_witness :
    (["Fe"] : List String).length < 2 ∧
      guptaInit ["Fe"] = Except.error GuptaError.indexError :=
  ⟨by decide, small_cluster_always_fails ["Fe"] (by decide)⟩

/-- C1: evaluation of the construction at the failing input.  The pair
lookup is NOT order-independent: the atoms list `["Co", "Fe"]` raises a
key error on the non-canonical key `Co-Fe`, while `["Fe", "Co"]` resolves
to the Fe-Co table entry. -/
theorem pair_lookup_not_symmetric :
    guptaInit ["Co", "Fe"] = Except.error (GuptaError.keyError "Co" "Fe") ∧
      guptaInit ["Fe", "Co"] = Except.ok [feCo] :=
  ⟨rfl, rfl⟩

/-- C7 counterexample: with an unsupported element present, the raised key
error can name a pair of two perfectly supported symbols instead of the
offending one (`Cu` is not mentioned by the error at all). -/
theorem unsupported_element_error_misnames :
    guptaInit ["Co", "Fe", "Cu"] = Except.error (GuptaError.keyError "Co" "Fe") ∧
      ("Cu" : String) ≠ "Co" ∧ ("Cu" : String) ≠ "Fe" ∧
      ("Cu" : String) ∉ (["Fe", "Co", "Ni"] : List String) :=
  ⟨rfl, by decide, by decide, by decide⟩

/-- C7 amended: any atoms list containing an element outside the supported
set fails to construct; no usable cluster value is ever returned. -/
theorem unsupported_element_fails (atoms : List String) (a : String)
    (ha : a ∈ atoms) (hsup : a ∉ (["Fe", "Co", "Ni"] : List String)) :
    ∀ ps, guptaInit atoms ≠ Except.ok ps := by
  intro ps hok
  unfold guptaInit at hok
  by_cases hnil : pairIdx atoms.length = []
  · rw [if_pos hnil] at hok
    cases hok
  · rw [if_neg hnil] at hok
    have hn2 : 2 ≤ atoms.length := by
      by_contra hcon
      exact hnil (pairIdx_eq_nil_iff.mpr (by omega))
    obtain ⟨t, ht, hta⟩ := List.mem_iff_getElem.mp ha
    have key : ∀ p : ℕ × ℕ, p ∈ pairIdx atoms.length → p.1 = t ∨ p.2 = t → False := by
      intro p hp hpt
      have habmem : (atoms.getD p.1 "", atoms.getD p.2 "") ∈ atomPairs atoms :=
        List.mem_map_of_mem _ hp
      obtain ⟨q, hq⟩ := lookupParams_ok_mem hok _ habmem
      obtain ⟨hx, hy⟩ := parameters_mkKey_supported hq
      have hgt : atoms.getD t "" = a := by
        rw [List.getD_eq_getElem atoms "" ht, hta]
      rcases hpt with hh | hh
      · rw [hh, hgt] at hx
        exact hsup hx
      · rw [hh, hgt] at hy
        exact hsup hy
    rcases Nat.lt_or_ge (t + 1) atoms.length with ht2 | ht2
    · exact key (t, t + 1) (mem_pairIdx.mpr (by omega)) (Or.inl rfl)
    · exact key (0, t) (mem_pairIdx.mpr (by omega)) (Or.inr rfl)

/-- Witness for C7's amended theorem at a concrete unsupported list. -/
theorem unsupported_element_fails_witness :
    ("Cu" : String) ∈ (["Cu", "Cu"] : List String) ∧
      ("Cu" : String) ∉ (["Fe", "Co", "Ni"] : List String) ∧
      guptaInit ["Cu", "Cu"] ≠ Except.ok [] :=
  ⟨by decide, by decide,
    unsupported_element_fails ["Cu", "Cu"] "Cu" (by decide) (by decide) []⟩

/-- C4: the pair enumeration has exactly `n*(n-1)/2` entries, contains
exactly the pairs `(i, j)` with `i < j < n`, lists pair `(i, j)` at linear
position `idx n i j` (the row-major upper-triangular index
`n*i + j - (i+1)*(i+2)/2`), `idx` is symmetric in its two atom arguments,
and each atom `i`'s `pairwise` row has `n - 1` entries, namely exactly the
linear indices of the pairs containing `i`, in ascending order of the
other atom's index. -/
theorem pair_indexing_correct (n : ℕ) :
    (pairIdx n).length = n * (n - 1) / 2 ∧
    (∀ p : ℕ × ℕ, p ∈ pairIdx n ↔ p.1 < p.2 ∧ p.2 < n) ∧
    (∀ i j : ℕ, i < j → j < n → (pairIdx n)[idx n i j]? = some (i, j)) ∧
    (∀ i j : ℕ, i ≠ j → idx n i j = idx n j i) ∧
    (∀ i j : ℕ, i < j → idx n i j = n * i + j - (i + 1) * (i + 2) / 2) ∧
    (pairwiseGroups n).length = n ∧
    (∀ i : ℕ, i < n →
      (pairwiseGroups n)[i]? =
        some (((List.range n).filter (fun j => decide (¬ i = j))).map (fun j => idx n i j))) ∧
    (∀ i : ℕ, ∀ row : List ℕ, (pairwiseGroups n)[i]? = some row →
      row.length = n - 1 ∧
      ∀ k : ℕ, k ∈ row ↔ ∃ p, (pairIdx n)[k]? = some p ∧ (p.1 = i ∨ p.2 = i)) := by
  have hrow : ∀ i : ℕ, i < n →
      (pairwiseGroups n)[i]? =
        some (((List.range n).filter (fun j => decide (¬ i = j))).map (fun j => idx n i j)) := by
    intro i hi
    unfold pairwiseGroups
    rw [List.getElem?_map, List.getElem?_range hi]
    rfl
  refine ⟨pairIdx_length n, fun p => mem_pairIdx, fun i j hij hj => pairIdx_get i n j hij hj,
    fun i j hij => idx_symm n hij, ?_, by simp [pairwiseGroups], hrow, ?_⟩
  · intro i j hij
    rw [idx_lt n i j hij, Nat.mul_comm (i + 1) (i + 2)]
  · intro i row hsome
    have hi : i < n := by
      have hb := (mem_of_some hsome).2
      simpa [pairwiseGroups] using hb
    rw [hrow i hi] at hsome
    cases hsome
    constructor
    · rw [List.length_map, filter_ne_range i n hi]
      simp only [List.length_append, List.length_range, List.length_range']
      omega
    · intro k
      exact mem_row_iff hi k

/-- Witness for C4 at a concrete three-atom cluster. -/
theorem pair_indexing_correct_witness :
    (pairIdx 3)[idx 3 0 2]? = some (0, 2) ∧ idx 3 2 1 = idx 3 1 2 :=
  ⟨(pair_indexing_correct 3).2.2.1 0 2 (by decide) (by decide),
    (pair_indexing_correct 3).2.2.2.1 2 1 (by decide)⟩

end CompChem

namespace CompChem

lemma guptaInit_ok_params {atoms : List String} {ps : List GuptaParams}
    (h : guptaInit atoms = Except.ok ps) :
    ps = (pairIdx atoms.length).map (tableParams atoms) := by
  unfold guptaInit at h
  by_cases hnil : pairIdx atoms.length = []
  · rw [if_pos hnil] at h
    cases h
  · rw [if_neg hnil] at h
    rw [lookupParams_ok_eq h]
    unfold atomPairs
    rw [List.map_map]
    rfl

lemma urList_map (n : ℕ) (atoms : List String) (c : ℕ → Fin 3 → ℝ) :
    urList n ((pairIdx n).map (tableParams atoms)) c =
      (pairIdx n).map (fun p => urTerm (tableParams atoms p) (dist3 c p.1 p.2)) := by
  unfold urList
  have h := List.zip_map' (fun p : ℕ × ℕ => p) (tableParams atoms) (pairIdx n)
  rw [List.map_id'] at h
  rw [h, List.map_map]
  rfl

lemma ubList_map (n : ℕ) (atoms : List String) (c : ℕ → Fin 3 → ℝ) :
    ubList n ((pairIdx n).map (tableParams atoms)) c =
      (pairIdx n).map (fun p => ubTerm (tableParams atoms p) (dist3 c p.1 p.2)) := by
  unfold ubList
  have h := List.zip_map' (fun p : ℕ × ℕ => p) (tableParams atoms) (pairIdx n)
  rw [List.map_id'] at h
  rw [h, List.map_map]
  rfl

lemma ubList_getD {n : ℕ} {atoms : List String} {c : ℕ → Fin 3 → ℝ} {k : ℕ} {p : ℕ × ℕ}
    (hk : (pairIdx n)[k]? = some p) :
    (ubList n ((pairIdx n).map (tableParams atoms)) c).getD k 0 =
      ubTerm (tableParams atoms p) (dist3 c p.1 p.2) := by
  rw [ubList_map, List.getD_eq_getElem?_getD, List.getElem?_map, hk]
  rfl

lemma band_row_eq (atoms : List String) (c : ℕ → Fin 3 → ℝ) (i : ℕ)
    (hi : i < atoms.length) :
    ((((List.range atoms.length).filter (fun j => decide (¬ i = j))).map
        (fun j => idx atoms.length i j)).map
      (fun k => (ubList atoms.length ((pairIdx atoms.length).map (tableParams atoms)) c).getD k 0)).sum =
    (((pairIdx atoms.length).filter (fun p => decide (p.1 = i ∨ p.2 = i))).map
      (fun p => ubTerm (tableParams atoms p) (dist3 c p.1 p.2))).sum := by
  set n := atoms.length with hn
  set F : ℕ → ℕ × ℕ := fun j => if i < j then (i, j) else (j, i) with hF
  set ubP : ℕ × ℕ → ℝ := fun p => ubTerm (tableParams atoms p) (dist3 c p.1 p.2) with hub
  have hperm : ((pairIdx n).filter (fun p => decide (p.1 = i ∨ p.2 = i))).Perm
      (((List.range n).filter (fun j => decide (¬ i = j))).map F) := by
    apply List.perm_of_nodup_nodup_toFinset_eq
    · exact (pairIdx_nodup n).filter _
    · refine List.Nodup.map ?_ ((List.nodup_range n).filter _)
      intro a b hab
      simp only [hF] at hab
      split_ifs at hab <;> simp only [Prod.mk.injEq] at hab <;> omega
    · ext p
      obtain ⟨p1, p2⟩ := p
      simp only [List.mem_toFinset, List.mem_filter, List.mem_map, List.mem_range,
        mem_pairIdx, decide_eq_true_eq, hF]
      constructor
      · rintro ⟨⟨h12, h2n⟩, hcase | hcase⟩
        · subst hcase
          exact ⟨p2, ⟨by omega, by omega⟩, by rw [if_pos h12]⟩
        · subst hcase
          exact ⟨p1, ⟨by omega, by omega⟩, by rw [if_neg (by omega)]⟩
      · rintro ⟨j, ⟨hjn, hji⟩, hFj⟩
        rcases Nat.lt_or_ge i j with hij | hij
        · rw [if_pos hij] at hFj
          cases hFj
          exact ⟨⟨hij, hjn⟩, Or.inl rfl⟩
        · rw [if_neg (by omega)] at hFj
          cases hFj
          exact ⟨⟨by omega, hi⟩, Or.inr rfl⟩
  have hsum := (hperm.map ubP).sum_eq
  rw [List.map_map] at hsum
  rw [List.map_map]
  rw [hsum]
  refine congrArg List.sum (List.map_congr_left ?_)
  intro j hj
  simp only [List.mem_filter, List.mem_range, decide_eq_true_eq] at hj
  obtain ⟨hjn, hji⟩ := hj
  rcases Nat.lt_or_ge i j with hij | hij
  · simp only [Function.comp_apply, hF, hub]
    rw [if_pos hij]
    exact ubList_getD (pairIdx_get i n j hij hjn)
  · simp only [Function.comp_apply, hF, hub]
    rw [if_neg (by omega)]
    rw [idx_symm n (by omega)]
    exact ubList_getD (pairIdx_get j n i (by omega) hi)

end CompChem

namespace CompChem

/-- C3: for every successfully constructed cluster and every coordinate
map, the potential equals the spec formula: twice the sum of repulsive
terms over all unordered pairs, minus, per atom, the square root of the
band sum over exactly the pairs containing that atom, with all constants
resolved from the six-entry parameter table. -/
theorem energy_formula (atoms : List String) (ps : List GuptaParams) (c : ℕ → Fin 3 → ℝ)
    (h2 : 2 ≤ atoms.length) (h : guptaInit atoms = Except.ok ps) :
    potentialCore atoms.length ps c = specEnergy atoms c := by
  rw [guptaInit_ok_params h]
  unfold potentialCore specEnergy
  congr 1
  · rw [urList_map]
  · unfold pairwiseGroups
    rw [List.map_map]
    refine congrArg List.sum (List.map_congr_left ?_)
    intro i hi
    rw [List.mem_range] at hi
    simp only [Function.comp_apply]
    exact congrArg Real.sqrt (band_row_eq atoms c i hi)

/-- Witness for C3 at the concrete two-iron cluster and zero coordinates. -/
theorem energy_formula_witness :
    2 ≤ (["Fe", "Fe"] : List String).length ∧
      guptaInit ["Fe", "Fe"] = Except.ok [feFe] ∧
      potentialCore 2 [feFe] (fun _ _ => (0 : ℝ)) = specEnergy ["Fe", "Fe"] (fun _ _ => (0 : ℝ)) :=
  ⟨by decide, rfl, energy_formula ["Fe", "Fe"] [feFe] (fun _ _ => (0 : ℝ)) (by decide) rfl⟩

end CompChem

namespace CompChem

lemma cTwo_dist : dist3 cTwo 0 1 = (25530/10000 : ℝ) := by
  have hsum : (∑ k : Fin 3, (cTwo 0 k - cTwo 1 k) ^ 2) = ((25530/10000 : ℝ)) ^ 2 := by
    rw [Fin.sum_univ_three]
    norm_num [cTwo, Fin.ext_iff]
  unfold dist3
  rw [hsum, Real.sqrt_sq (by norm_num)]

lemma dimer_eval : potentialCore 2 [feFe] cTwo = -(29695/10000 : ℝ) := by
  unfold potentialCore urList ubList
  have hp : pairIdx 2 = [(0, 1)] := by decide
  have hpw : pairwiseGroups 2 = [[0], [0]] := by decide
  rw [hp, hpw]
  simp only [List.zip_cons_cons, List.zip_nil_right, List.map_cons, List.map_nil,
    List.sum_cons, List.sum_nil, List.getD_cons_zero]
  rw [cTwo_dist]
  unfold urTerm ubTerm feFe
  norm_num [Real.exp_zero]
  rw [show (261760041 : ℝ) = 16179 ^ 2 by norm_num,
    show (100000000 : ℝ) = 10000 ^ 2 by norm_num,
    Real.sqrt_sq (by norm_num : (0:ℝ) ≤ 16179),
    Real.sqrt_sq (by norm_num : (0:ℝ) ≤ 10000)]
  norm_num

/-- C2 counterexample: at the spec's literal two-atom fixture (two iron
atoms at the equilibrium distance 2.5530), the potential does NOT equal the
spec's expected value 2*A - XI = -1.35160 eV. -/
theorem two_atom_fixture_not_spec_value :
    guptaInit ["Fe", "Fe"] = Except.ok [feFe] ∧
      potentialCore 2 [feFe] cTwo ≠ -(13516/10000 : ℝ) := by
  refine ⟨rfl, ?_⟩
  rw [dimer_eval]
  norm_num

/-- C2 amended: at the two-atom fixture the code's energy is
2*A - 2*XI = -2.96950 eV (the band square root contributes XI once per
atom, i.e. twice for the dimer). -/
theorem two_atom_fixture_value :
    guptaInit ["Fe", "Fe"] = Except.ok [feFe] ∧
      potentialCore 2 [feFe] cTwo = 2 * (feFe.A : ℝ) - 2 * (feFe.XI : ℝ) ∧
      potentialCore 2 [feFe] cTwo = -(29695/10000 : ℝ) := by
  refine ⟨rfl, ?_, dimer_eval⟩
  rw [dimer_eval]
  simp only [feFe]
  norm_num

lemma guptaInit_ok_len {atoms : List String} {ps : List GuptaParams}
    (h : guptaInit atoms = Except.ok ps) : 2 ≤ atoms.length := by
  by_contra hlt
  have hnil : pairIdx atoms.length = [] := pairIdx_eq_nil_iff.mpr (by omega)
  unfold guptaInit at h
  rw [if_pos hnil] at h
  cases h

lemma pairIdx_bound_iff {n len : ℕ} (h2 : 2 ≤ n) :
    (∀ p ∈ pairIdx n, p.1 < len ∧ p.2 < len) ↔ n ≤ len := by
  constructor
  · intro h
    have hmem : (n - 2, n - 1) ∈ pairIdx n := mem_pairIdx.mpr (by omega)
    have hb := h _ hmem
    omega
  · intro h p hp
    have hb := mem_pairIdx.mp hp
    omega

/-- C5 amended: evaluation raises the index error exactly when the supplied
coordinate list has FEWER rows than the cluster's atom count; with at least
`n` rows (equal or more) the evaluation proceeds normally on the stored
pair indices. -/
theorem shape_check (atoms : List String) (ps : List GuptaParams)
    (coords : List (Fin 3 → ℝ)) (h : guptaInit atoms = Except.ok ps) :
    (potentialChecked atoms.length ps coords = Except.error GuptaError.indexError ↔
      coords.length < atoms.length) ∧
    (atoms.length ≤ coords.length →
      potentialChecked atoms.length ps coords =
        Except.ok (potentialCore atoms.length ps (liftCoords coords))) := by
  have h2 := guptaInit_ok_len h
  unfold potentialChecked
  by_cases hc : ∀ p ∈ pairIdx atoms.length, p.1 < coords.length ∧ p.2 < coords.length
  · rw [if_pos hc]
    have hle := (pairIdx_bound_iff h2).mp hc
    refine ⟨⟨fun hE => ?_, fun hlt => absurd hlt (by omega)⟩, fun _ => rfl⟩
    cases hE
  · rw [if_neg hc]
    have hlt : coords.length < atoms.length := by
      by_contra hge
      exact hc ((pairIdx_bound_iff h2).mpr (by omega))
    exact ⟨⟨fun _ => hlt, fun _ => rfl⟩, fun hge => absurd hge (by omega)⟩

/-- Witness for C5's amended theorem: on the empty coordinate list the
two-iron cluster's evaluation errors (0 rows < 2 atoms). -/
theorem shape_check_witness :
    guptaInit ["Fe", "Fe"] = Except.ok [feFe] ∧
      (potentialChecked 2 [feFe] ([] : List (Fin 3 → ℝ)) =
          Except.error GuptaError.indexError ↔
        ([] : List (Fin 3 → ℝ)).length < 2) :=
  ⟨rfl, (shape_check ["Fe", "Fe"] [feFe] ([] : List (Fin 3 → ℝ)) rfl).1⟩

/-- C5 counterexample: a coordinate matrix whose row count (3) differs from
the cluster's atom count (2) is NOT rejected: the evaluation succeeds,
silently ignoring the extra row. -/
theorem shape_mismatch_not_rejected :
    guptaInit ["Fe", "Fe"] = Except.ok [feFe] ∧
      ([(fun _ => (0:ℝ)), (fun _ => (0:ℝ)), (fun _ => (0:ℝ))] : List (Fin 3 → ℝ)).length ≠
        (["Fe", "Fe"] : List String).length ∧
      potentialChecked 2 [feFe]
          ([(fun _ => (0:ℝ)), (fun _ => (0:ℝ)), (fun _ => (0:ℝ))] : List (Fin 3 → ℝ)) =
        Except.ok (potentialCore 2 [feFe]
          (liftCoords ([(fun _ => (0:ℝ)), (fun _ => (0:ℝ)), (fun _ => (0:ℝ))] : List (Fin 3 → ℝ)))) := by
  refine ⟨rfl, by decide, ?_⟩
  unfold potentialChecked
  rw [if_pos (by decide)]

lemma dist3_translate (c : ℕ → Fin 3 → ℝ) (t : Fin 3 → ℝ) :
    dist3 (fun i k => c i k + t k) = dist3 c := by
  funext i j
  unfold dist3
  congr 1
  refine Finset.sum_congr rfl fun k _ => ?_
  ring

lemma sumsq_mulVec (R : Matrix (Fin 3) (Fin 3) ℝ) (hR : R.transpose * R = 1)
    (v : Fin 3 → ℝ) :
    ∑ k : Fin 3, (R.mulVec v k) ^ 2 = ∑ k : Fin 3, (v k) ^ 2 := by
  have hdot : ∀ w : Fin 3 → ℝ, ∑ k : Fin 3, (w k) ^ 2 = Matrix.dotProduct w w := by
    intro w
    exact Finset.sum_congr rfl fun k _ => pow_two (w k)
  rw [hdot, hdot]
  rw [Matrix.dotProduct_mulVec, ← Matrix.mulVec_transpose, Matrix.mulVec_mulVec, hR,
    Matrix.one_mulVec]

lemma dist3_rotate (c : ℕ → Fin 3 → ℝ) (R : Matrix (Fin 3) (Fin 3) ℝ)
    (hR : R.transpose * R = 1) :
    dist3 (fun i => R.mulVec (c i)) = dist3 c := by
  funext i j
  unfold dist3
  congr 1
  have hlin : ∀ k : Fin 3, R.mulVec (c i) k - R.mulVec (c j) k =
      R.mulVec (fun l => c i l - c j l) k := by
    intro k
    simp only [Matrix.mulVec, Matrix.dotProduct, mul_sub]
    rw [← Finset.sum_sub_distrib]
  calc ∑ k : Fin 3, (R.mulVec (c i) k - R.mulVec (c j) k) ^ 2
      = ∑ k : Fin 3, (R.mulVec (fun l => c i l - c j l) k) ^ 2 :=
        Finset.sum_congr rfl fun k _ => by rw [hlin k]
    _ = ∑ k : Fin 3, (c i k - c j k) ^ 2 := sumsq_mulVec R hR _

lemma potentialCore_dist_congr {n : ℕ} {ps : List GuptaParams}
    {c c2 : ℕ → Fin 3 → ℝ} (h : dist3 c2 = dist3 c) :
    potentialCore n ps c2 = potentialCore n ps c := by
  unfold potentialCore urList ubList
  rw [h]

/-- C6: the energy is unchanged by translating every atom by a fixed
vector or by applying one orthogonal rotation to every atom's coordinates. -/
theorem rigid_body_invariance (n : ℕ) (ps : List GuptaParams)
    (c : ℕ → Fin 3 → ℝ) (t : Fin 3 → ℝ) (R : Matrix (Fin 3) (Fin 3) ℝ)
    (hR : R.transpose * R = 1) :
    potentialCore n ps (fun i k => c i k + t k) = potentialCore n ps c ∧
      potentialCore n ps (fun i => R.mulVec (c i)) = potentialCore n ps c :=
  ⟨potentialCore_dist_congr (dist3_translate c t),
    potentialCore_dist_congr (dist3_rotate c R hR)⟩

/-- Witness for C6 with the identity rotation and a unit translation on
the two-iron cluster. -/
theorem rigid_body_invariance_witness :
    ((1 : Matrix (Fin 3) (Fin 3) ℝ).transpose * 1 = 1) ∧
      potentialCore 2 [feFe] (fun i k => (fun _ _ => (0:ℝ)) i k + (fun _ => (1:ℝ)) k) =
        potentialCore 2 [feFe] (fun _ _ => (0:ℝ)) ∧
      potentialCore 2 [feFe]
          (fun i => (1 : Matrix (Fin 3) (Fin 3) ℝ).mulVec ((fun _ _ => (0:ℝ)) i)) =
        potentialCore 2 [feFe] (fun _ _ => (0:ℝ)) := by
  have hR : (1 : Matrix (Fin 3) (Fin 3) ℝ).transpose * 1 = 1 := by simp
  obtain ⟨h1, h2⟩ := rigid_body_invariance 2 [feFe] (fun _ _ => (0:ℝ)) (fun _ => (1:ℝ)) 1 hR
  exact ⟨hR, h1, h2⟩

lemma pairDistRows_access (coords : List (Fin 3 → ℝ)) {i j : ℕ}
    (hij : i < j) (hj : j < coords.length) :
    ((pairDistRows coords).getD i []).getD (j - 1) 0 =
      dist3 (liftCoords coords) i j := by
  have hrow : (pairDistRows coords).getD i [] =
      ((List.range coords.length).filter (fun j => decide (¬ i = j))).map
        (fun j => dist3 (liftCoords coords) i j) := by
    unfold pairDistRows
    rw [List.getD_eq_getElem?_getD, List.getElem?_map,
      List.getElem?_range (by omega : i < coords.length)]
    rfl
  rw [hrow]
  rw [List.getD_eq_getElem?_getD, List.getElem?_map]
  rw [filter_ne_range i coords.length (by omega)]
  rw [List.getElem?_append_right (by simp only [List.length_range]; omega)]
  simp only [List.length_range]
  rw [List.getElem?_range' _ _ (by omega : j - 1 - i < coords.length - i - 1)]
  simp only [Option.map_some', Option.getD_some]
  congr 1
  omega

/-- C9: when no pair of atoms lies within the bond threshold, the valid
bond list is empty and the report takes the no-bonds branch, in which the
mean is never computed -- no empty-mean fault can occur. -/
theorem empty_bond_report (coords : List (Fin 3 → ℝ))
    (h : ∀ i j : ℕ, i < j → j < coords.length →
      (validBond : ℝ) < dist3 (liftCoords coords) i j) :
    validDistances coords = [] ∧ computeDistances coords = BondOutput.noBonds := by
  have hvd : validDistances coords = [] := by
    unfold validDistances
    rw [List.flatMap_eq_nil_iff]
    intro i hi
    rw [List.mem_range] at hi
    rw [List.flatMap_eq_nil_iff]
    intro j hj
    rw [List.mem_range'] at hj
    obtain ⟨d, hd, rfl⟩ := hj
    have hij : i < i + 1 + 1 * d := by omega
    have hjn : i + 1 + 1 * d < coords.length := by omega
    rw [if_neg ?_]
    rw [pairDistRows_access coords hij hjn]
    exact not_le.mpr (h i (i + 1 + 1 * d) hij hjn)
  refine ⟨hvd, ?_⟩
  unfold computeDistances
  rw [if_pos hvd]

lemma cBond_dist : dist3 (liftCoords cBond) 0 1 = 10 := by
  have hsum : (∑ k : Fin 3, (liftCoords cBond 0 k - liftCoords cBond 1 k) ^ 2) =
      ((10 : ℝ)) ^ 2 := by
    rw [Fin.sum_univ_three]
    norm_num [liftCoords, cBond, Fin.ext_iff]
  unfold dist3
  rw [hsum, Real.sqrt_sq (by norm_num)]

/-- Witness for C9: a two-atom cluster 10 Angstroms apart has no bonds within
the 2.513 threshold; the report is the no-bonds outcome. -/
theorem empty_bond_report_witness :
    (∀ i j : ℕ, i < j → j < cBond.length →
      (validBond : ℝ) < dist3 (liftCoords cBond) i j) ∧
      validDistances cBond = [] ∧ computeDistances cBond = BondOutput.noBonds := by
  have hlen : cBond.length = 2 := rfl
  have h : ∀ i j : ℕ, i < j → j < cBond.length →
      (validBond : ℝ) < dist3 (liftCoords cBond) i j := by
    intro i j hij hj
    rw [hlen] at hj
    obtain rfl : i = 0 := by omega
    obtain rfl : j = 1 := by omega
    rw [cBond_dist]
    norm_num [validBond]
  exact ⟨h, empty_bond_report cBond h⟩

lemma contDiffAt_list_sum {E : Type} [NormedAddCommGroup E] [NormedSpace ℝ E]
    {α : Type} (l : List α) (g : α → E → ℝ) (x : E)
    (h : ∀ a ∈ l, ContDiffAt ℝ 2 (g a) x) :
    ContDiffAt ℝ 2 (fun y => (l.map (fun a => g a y)).sum) x := by
  induction l with
  | nil => simpa using contDiffAt_const
  | cons a rest ih =>
    simp only [List.map_cons, List.sum_cons]
    exact (h a (List.mem_cons_self a rest)).add
      (ih fun b hb => h b (List.mem_cons_of_mem a hb))

lemma contDiffAt_coordDist {n : ℕ} {i j : ℕ} (hi : i < n) (hj : j < n)
    (x : Fin n → Fin 3 → ℝ) (hx : x ⟨i, hi⟩ ≠ x ⟨j, hj⟩) :
    ContDiffAt ℝ 2 (fun y : Fin n → Fin 3 → ℝ => dist3 (toCoords n y) i j) x := by
  have heq : (fun y : Fin n → Fin 3 → ℝ => dist3 (toCoords n y) i j) =
      (fun y : Fin n → Fin 3 → ℝ =>
        Real.sqrt (∑ k : Fin 3, (y ⟨i, hi⟩ k - y ⟨j, hj⟩ k) ^ 2)) := by
    funext y
    unfold dist3 toCoords
    rw [dif_pos hi, dif_pos hj]
  rw [heq]
  have hproj : ∀ (t : ℕ) (ht : t < n) (k : Fin 3),
      ContDiff ℝ 2 (fun y : Fin n → Fin 3 → ℝ => y ⟨t, ht⟩ k) := by
    intro t ht k
    exact ((ContinuousLinearMap.proj k : (Fin 3 → ℝ) →L[ℝ] ℝ).comp
      (ContinuousLinearMap.proj (⟨t, ht⟩ : Fin n) :
        (Fin n → Fin 3 → ℝ) →L[ℝ] (Fin 3 → ℝ))).contDiff
  have hinner : ContDiff ℝ 2
      (fun y : Fin n → Fin 3 → ℝ => ∑ k : Fin 3, (y ⟨i, hi⟩ k - y ⟨j, hj⟩ k) ^ 2) := by
    refine ContDiff.sum fun k _ => ?_
    exact ((hproj i hi k).sub (hproj j hj k)).pow 2
  have hpos : 0 < ∑ k : Fin 3, (x ⟨i, hi⟩ k - x ⟨j, hj⟩ k) ^ 2 := by
    have hk : ∃ k : Fin 3, x ⟨i, hi⟩ k ≠ x ⟨j, hj⟩ k := by
      by_contra hall
      push_neg at hall
      exact hx (funext hall)
    obtain ⟨k, hk⟩ := hk
    refine Finset.sum_pos' (fun t _ => sq_nonneg _) ⟨k, Finset.mem_univ k, ?_⟩
    exact pow_two_pos_of_ne_zero (sub_ne_zero.mpr hk)
  exact (Real.contDiffAt_sqrt (ne_of_gt hpos)).comp x hinner.contDiffAt

lemma contDiffAt_urTerm {n : ℕ} {i j : ℕ} (hi : i < n) (hj : j < n)
    (q : GuptaParams) (x : Fin n → Fin 3 → ℝ) (hx : x ⟨i, hi⟩ ≠ x ⟨j, hj⟩) :
    ContDiffAt ℝ 2 (fun y : Fin n → Fin 3 → ℝ =>
      urTerm q (dist3 (toCoords n y) i j)) x := by
  have hd := contDiffAt_coordDist hi hj x hx
  unfold urTerm
  exact contDiffAt_const.mul ((Real.contDiff_exp.contDiffAt).comp x
    (contDiffAt_const.mul ((hd.div_const _).sub contDiffAt_const)))

lemma contDiffAt_ubTerm {n : ℕ} {i j : ℕ} (hi : i < n) (hj : j < n)
    (q : GuptaParams) (x : Fin n → Fin 3 → ℝ) (hx : x ⟨i, hi⟩ ≠ x ⟨j, hj⟩) :
    ContDiffAt ℝ 2 (fun y : Fin n → Fin 3 → ℝ =>
      ubTerm q (dist3 (toCoords n y) i j)) x := by
  have hd := contDiffAt_coordDist hi hj x hx
  unfold ubTerm
  exact contDiffAt_const.mul ((Real.contDiff_exp.contDiffAt).comp x
    (contDiffAt_const.mul ((hd.div_const _).sub contDiffAt_const)))

lemma params_XI_pos {atoms : List String} {ps : List GuptaParams}
    (h : guptaInit atoms = Except.ok ps) : ∀ q ∈ ps, 0 < q.XI := by
  intro q hq
  rw [guptaInit_ok_params h] at hq
  obtain ⟨p, hp, rfl⟩ := List.mem_map.mp hq
  unfold tableParams
  cases hpar : parameters (mkKey (atoms.getD p.1 "") (atoms.getD p.2 "")) with
  | none => rw [Option.getD_none]; norm_num [feFe]
  | some q2 =>
    rw [Option.getD_some]
    have hmem := parameters_some_mem hpar
    simp only [List.mem_cons, List.not_mem_nil, or_false] at hmem
    rcases hmem with rfl | rfl | rfl | rfl | rfl | rfl <;>
      norm_num [feFe, feCo, feNi, coCo, coNi, niNi]

lemma ubTerm_pos {q : GuptaParams} (hXI : 0 < q.XI) (d : ℝ) : 0 < ubTerm q d := by
  unfold ubTerm
  apply mul_pos
  · have hc : (0 : ℝ) < (q.XI : ℝ) := by exact_mod_cast hXI
    exact pow_pos hc 2
  · exact Real.exp_pos _

lemma pairwiseGroups_row {n : ℕ} {row : List ℕ} (hrow : row ∈ pairwiseGroups n) :
    ∃ i, i < n ∧ row =
      ((List.range n).filter (fun j => decide (¬ i = j))).map (fun j => idx n i j) := by
  unfold pairwiseGroups at hrow
  obtain ⟨i, hi, hrw⟩ := List.mem_map.mp hrow
  exact ⟨i, List.mem_range.mp hi, hrw.symm⟩

lemma row_ne_nil {n i : ℕ} (hi : i < n) (h2 : 2 ≤ n) :
    ((List.range n).filter (fun j => decide (¬ i = j))).map (fun j => idx n i j) ≠ [] := by
  intro hnil
  have hlen := congrArg List.length hnil
  rw [List.length_map, filter_ne_range i n hi] at hlen
  simp only [List.length_append, List.length_range, List.length_range',
    List.length_nil] at hlen
  omega

lemma ufin_contDiffAt {atoms : List String} {ps : List GuptaParams}
    (h : guptaInit atoms = Except.ok ps) (x : Fin atoms.length → Fin 3 → ℝ)
    (hx : ∀ i j : Fin atoms.length, i ≠ j → x i ≠ x j) :
    ContDiffAt ℝ 2 (Ufin atoms.length ps) x := by
  have h2 : 2 ≤ atoms.length := guptaInit_ok_len h
  have hXI := params_XI_pos h
  have hps := guptaInit_ok_params h
  subst hps
  have hUeq : Ufin atoms.length ((pairIdx atoms.length).map (tableParams atoms)) = fun y =>
      2 * (urList atoms.length ((pairIdx atoms.length).map (tableParams atoms)) (toCoords atoms.length y)).sum -
      ((pairwiseGroups atoms.length).map (fun row =>
        Real.sqrt ((row.map (fun k =>
          (ubList atoms.length ((pairIdx atoms.length).map (tableParams atoms)) (toCoords atoms.length y)).getD k 0)).sum))).sum := by
    funext y
    rfl
  rw [hUeq]
  simp only [urList_map]
  apply ContDiffAt.sub
  · apply contDiffAt_const.mul
    apply contDiffAt_list_sum (pairIdx atoms.length)
      (fun p y => urTerm (tableParams atoms p) (dist3 (toCoords atoms.length y) p.1 p.2)) x
    intro p hp
    obtain ⟨h12, h2n⟩ := mem_pairIdx.mp hp
    refine contDiffAt_urTerm (by omega) h2n _ x ?_
    exact hx ⟨p.1, by omega⟩ ⟨p.2, h2n⟩ (by simp only [ne_eq, Fin.mk.injEq]; omega)
  · apply contDiffAt_list_sum (pairwiseGroups atoms.length)
      (fun row y => Real.sqrt ((row.map (fun k =>
        (ubList atoms.length ((pairIdx atoms.length).map (tableParams atoms)) (toCoords atoms.length y)).getD k 0)).sum)) x
    intro row hrow
    obtain ⟨i, hi, rfl⟩ := pairwiseGroups_row hrow
    have hSsm : ContDiffAt ℝ 2 (fun y =>
        ((((List.range atoms.length).filter (fun j => decide (¬ i = j))).map (fun j => idx atoms.length i j)).map (fun k =>
          (ubList atoms.length ((pairIdx atoms.length).map (tableParams atoms)) (toCoords atoms.length y)).getD k 0)).sum) x := by
      apply contDiffAt_list_sum
      intro k hk
      obtain ⟨p, hp, hpc⟩ := (mem_row_iff hi k).mp hk
      obtain ⟨hpm, hklt⟩ := mem_of_some hp
      obtain ⟨h12, h2n⟩ := mem_pairIdx.mp hpm
      have hfun : (fun y => (ubList atoms.length ((pairIdx atoms.length).map (tableParams atoms)) (toCoords atoms.length y)).getD k 0) =
          (fun y => ubTerm (tableParams atoms p) (dist3 (toCoords atoms.length y) p.1 p.2)) := by
        funext y
        exact ubList_getD hp
      rw [hfun]
      refine contDiffAt_ubTerm (by omega) h2n _ x ?_
      exact hx ⟨p.1, by omega⟩ ⟨p.2, h2n⟩ (by simp only [ne_eq, Fin.mk.injEq]; omega)
    have hSpos : 0 < ((((List.range atoms.length).filter (fun j => decide (¬ i = j))).map (fun j => idx atoms.length i j)).map (fun k =>
        (ubList atoms.length ((pairIdx atoms.length).map (tableParams atoms)) (toCoords atoms.length x)).getD k 0)).sum := by
      apply List.sum_pos
      · intro v hv
        obtain ⟨k, hk, rfl⟩ := List.mem_map.mp hv
        obtain ⟨p, hp, hpc⟩ := (mem_row_iff hi k).mp hk
        rw [ubList_getD hp]
        refine ubTerm_pos ?_ _
        exact hXI _ (List.mem_map_of_mem _ (mem_of_some hp).1)
      · intro hnil
        rw [List.map_eq_nil_iff] at hnil
        exact row_ne_nil hi h2 hnil
    exact (Real.contDiffAt_sqrt (ne_of_gt hSpos)).comp x hSsm

/-- C8: for every successfully constructed cluster and every coordinate
matrix in which all atoms occupy pairwise distinct positions (the spec
leaves coincident-atom geometry undefined), the Hessian of the potential
is symmetric: entry (a, b) equals entry (b, a). -/
theorem hessian_symmetric (atoms : List String) (ps : List GuptaParams)
    (h : guptaInit atoms = Except.ok ps) (x : Fin atoms.length → Fin 3 → ℝ)
    (hx : ∀ i j : Fin atoms.length, i ≠ j → x i ≠ x j)
    (a b : Fin atoms.length × Fin 3) :
    hessianEntry atoms.length ps x a b = hessianEntry atoms.length ps x b a := by
  have hcd := ufin_contDiffAt h x hx
  have hsymm := hcd.isSymmSndFDerivAt (le_refl 2)
  exact hsymm (basisVec atoms.length a) (basisVec atoms.length b)

lemma xW_distinct : ∀ i j : Fin 2, i ≠ j → xW i ≠ xW j := by
  intro i j hij heq
  have h0 := congrFun heq 0
  fin_cases i <;> fin_cases j <;> simp [xW] at h0 hij ⊢

/-- Witness for C8 on a concrete two-iron cluster with distinct positions. -/
theorem hessian_symmetric_witness :
    guptaInit ["Fe", "Fe"] = Except.ok [feFe] ∧
      (∀ i j : Fin 2, i ≠ j → xW i ≠ xW j) ∧
      hessianEntry 2 [feFe] xW (0, 0) (1, 2) = hessianEntry 2 [feFe] xW (1, 2) (0, 0) :=
  ⟨rfl, xW_distinct,
    hessian_symmetric ["Fe", "Fe"] [feFe] rfl xW xW_distinct
      ((0, 0) : Fin 2 × Fin 3) ((1, 2) : Fin 2 × Fin 3)⟩

end CompChem
